import Mathlib

/-!
Shallow embedding of `git-branch-grep` (src/main.rs) in Lean 4.

The program diffs HEAD against a computed base commit, filters diff lines by
a regex, and suppresses added lines whose (trimmed) content also occurs as a
removed line (a multiset-based cancellation).  External collaborators (git2
repository operations, the regex engine) are modelled as abstract data
carried in a `Repo` / `Matcher` structure; everything the program itself
computes is translated directly from the source.

Strings are modelled as `List Char` (with byte-level diff content as
`List Nat` decoded by an explicit UTF-8 decoder), so all definitions are
executable and decidable on concrete inputs.
-/

deriving instance DecidableEq for Except

namespace GitBranchGrep

/-! ## MultiSet (src/main.rs lines 99-136)

`MultiSet<T>(HashMap<T, usize>)` is embedded as an association list with at
most one entry per key (which is how the operations keep it).  `insert`
increments an existing entry or inserts it with count 1; `remove` deletes the
entry when its count is 1, otherwise decrements, and returns whether the key
was present. -/

/-- One hash-map entry: key and occurrence count. -/
def Entries (T : Type) : Type := List (T × Nat)

/-- Embeds `MultiSet::insert`: bump the entry for `k`, or create it with count 1. -/
def insertEntry {T : Type} [DecidableEq T] : List (T × Nat) → T → List (T × Nat)
  | [], k => [(k, 1)]
  | (k', c) :: rest, k =>
    if k' = k then (k', c + 1) :: rest else (k', c) :: insertEntry rest k

/-- Embeds `MultiSet::remove`: if an entry for `k` exists, delete it when its count
is 1 and otherwise decrement it, returning `true`; return `false` when no
entry exists. -/
def removeEntry {T : Type} [DecidableEq T] : List (T × Nat) → T → List (T × Nat) × Bool
  | [], _ => ([], false)
  | (k', c) :: rest, k =>
    if k' = k then
      (if c = 1 then rest else (k', c - 1) :: rest, true)
    else
      let r := removeEntry rest k
      ((k', c) :: r.1, r.2)

/-- The count recorded for key `k` (0 when absent). -/
def countEntry {T : Type} [DecidableEq T] : List (T × Nat) → T → Nat
  | [], _ => 0
  | (k', c) :: rest, k => if k' = k then c else countEntry rest k

/-- Whether an entry for key `k` is stored. -/
def memEntry {T : Type} [DecidableEq T] : List (T × Nat) → T → Bool
  | [], _ => false
  | (k', _) :: rest, k => if k' = k then true else memEntry rest k

/-- The `MultiSet<T>` container: wrapper around the entry list. -/
structure MultiSet (T : Type) where
  entries : List (T × Nat)
deriving DecidableEq

/-- Constructor `MultiSet::new`. -/
def MultiSet.new {T : Type} : MultiSet T := ⟨[]⟩

/-- Lifted `MultiSet::insert`. -/
def MultiSet.insert {T : Type} [DecidableEq T] (m : MultiSet T) (k : T) : MultiSet T :=
  ⟨insertEntry m.entries k⟩

/-- Lifted `MultiSet::remove`: the updated multiset together with the returned Bool. -/
def MultiSet.remove {T : Type} [DecidableEq T] (m : MultiSet T) (k : T) :
    MultiSet T × Bool :=
  let r := removeEntry m.entries k
  (⟨r.1⟩, r.2)

/-- Occurrence count of `k` in the multiset (0 when absent). -/
def MultiSet.count {T : Type} [DecidableEq T] (m : MultiSet T) (k : T) : Nat :=
  countEntry m.entries k

/-- Presence of key `k`. -/
def MultiSet.mem {T : Type} [DecidableEq T] (m : MultiSet T) (k : T) : Bool :=
  memEntry m.entries k

/-- Hash-map well-formedness: one entry per key, all counts positive. -/
def MultiSet.wf {T : Type} (m : MultiSet T) : Prop :=
  (m.entries.map Prod.fst).Nodup ∧ ∀ p ∈ m.entries, 0 < p.2

instance {T : Type} [DecidableEq T] (m : MultiSet T) : Decidable m.wf := by
  unfold MultiSet.wf; infer_instance

/-! ## Dedup Engine (src/main.rs lines 276-339) -/

/-- The `Line` record (src/main.rs lines 67-73): the trimmed content, the first regex
match's half-open range into it, the line number and the file path. -/
structure Line where
  content : List Char
  range : Nat × Nat
  lineno : Nat
  path : String
deriving DecidableEq

/-- The output loop of `main` (src/main.rs lines 333-339): for each added
line in order, `remove` its content from the removed-content multiset; when
the removal succeeded the line is suppressed, otherwise it is printed. -/
def emitLines (removed : MultiSet (List Char)) : List Line → List Line
  | [] => []
  | l :: rest =>
    let r := removed.remove l.content
    if r.2 then emitLines r.1 rest else l :: emitLines r.1 rest

/-- The removed-content multiset as built by the classifier callback's
`removed_lines.insert(content.to_owned())` (src/main.rs line 324), one
insert per matching removed line, in stream order. -/
def buildRemoved (cs : List (List Char)) : MultiSet (List Char) :=
  cs.foldl MultiSet.insert MultiSet.new

/-! ## UTF-8 decoding (`str::from_utf8`, src/main.rs line 292)

Byte-at-a-time decoder accepting exactly well-formed UTF-8 (two-byte leads
`C2..DF`; three-byte leads `E0/E1..EC,EE,EF/ED` with their second-byte
ranges excluding overlong forms and surrogates; four-byte leads `F0/F1..F3/F4`
with their second-byte ranges; continuations `80..BF`), which is the set of
inputs `str::from_utf8` accepts.  The state is the number of continuation
bytes still expected, the admissible range for the next byte, and the
code point assembled so far. -/

/-- Decoder core: `need`-many continuation bytes are still expected, the next
byte must lie in `lo..hi`, and `cp` is the code point assembled so far. -/
def utf8Go : Nat → Nat → Nat → Nat → List Nat → Option (List Char)
  | 0, _, _, _, [] => some []
  | _ + 1, _, _, _, [] => none
  | 0, _, _, _, b :: t =>
    if b ≤ 0x7F then (utf8Go 0 0 0 0 t).map (fun cs => Char.ofNat b :: cs)
    else if b < 0xC2 then none
    else if b ≤ 0xDF then utf8Go 1 0x80 0xBF (b - 0xC0) t
    else if b = 0xE0 then utf8Go 2 0xA0 0xBF (b - 0xE0) t
    else if b = 0xED then utf8Go 2 0x80 0x9F (b - 0xE0) t
    else if b ≤ 0xEF then utf8Go 2 0x80 0xBF (b - 0xE0) t
    else if b = 0xF0 then utf8Go 3 0x90 0xBF (b - 0xF0) t
    else if b = 0xF4 then utf8Go 3 0x80 0x8F (b - 0xF0) t
    else if b ≤ 0xF4 then utf8Go 3 0x80 0xBF (b - 0xF0) t
    else none
  | 1, lo, hi, cp, b :: t =>
    if lo ≤ b ∧ b ≤ hi then
      (utf8Go 0 0 0 0 t).map (fun cs => Char.ofNat (cp * 64 + (b - 0x80)) :: cs)
    else none
  | need + 2, lo, hi, cp, b :: t =>
    if lo ≤ b ∧ b ≤ hi then utf8Go (need + 1) 0x80 0xBF (cp * 64 + (b - 0x80)) t
    else none

/-- Embeds `str::from_utf8(line.content())` as an `Option`: `some` of the decoded
characters on valid UTF-8, `none` on an encoding error. -/
def utf8Decode (l : List Nat) : Option (List Char) := utf8Go 0 0 0 0 l

/-- Embeds `char::is_whitespace` for the classifier's `trim` (ASCII model). -/
def isWs (c : Char) : Bool := c.isWhitespace

/-- Embeds `str::trim` (src/main.rs line 294): strip leading and trailing
whitespace. -/
def trimChars (cs : List Char) : List Char :=
  ((cs.dropWhile isWs).reverse.dropWhile isWs).reverse

/-! ## Diff Line Classifier (the callback in src/main.rs lines 278-327) -/

/-- Embeds `git2::DiffLineType`: only additions and deletions are classified, every
other origin (context, headers, ...) is skipped. -/
inductive DiffLineType
  | addition
  | deletion
  | other
deriving DecidableEq

/-- One side of a `git2::DiffDelta`: binary flag and optional path. -/
structure DiffFile where
  binary : Bool
  path : Option String
deriving DecidableEq

/-- A raw diff line event as delivered by `git2`'s `Diff::print` callback:
origin, raw byte content, the optional old/new line numbers, and the two
file descriptors of the owning delta. -/
structure DiffLineEvent where
  origin : DiffLineType
  content : List Nat
  newLineno : Option Nat
  oldLineno : Option Nat
  newFile : DiffFile
  oldFile : DiffFile
deriving DecidableEq

/-- Errors the per-line callback can signal: the UTF-8 conversion error
(src/main.rs line 293), the `expect("no lineno")` invariant violation
(line 299), and the producer's own iteration failure (line 379). -/
inductive ProcError
  | encodingError
  | missingLineno
  | diffPrintError
deriving DecidableEq

/-- The compiled search regex, modelled as the external collaborator it is:
`find` returns the first match's half-open range in the searched string, or
`none` when the pattern does not match. -/
structure Matcher where
  find : List Char → Option (Nat × Nat)

/-- Contract of the regex collaborator: a reported first-match range lies
within the searched string (the `regex` crate guarantees byte indices on
character boundaries; in this character-sequence model those are character
indices). -/
def Matcher.wf (search : Matcher) : Prop :=
  ∀ cs s e, search.find cs = some (s, e) → s ≤ e ∧ e ≤ cs.length

/-- The mutable state owned by the diff-processing pass:
`added_lines: Vec<Line>` and `removed_lines: MultiSet<String>`
(src/main.rs lines 276-277). -/
structure ProcState where
  addedLines : List Line
  removedLines : MultiSet (List Char)
deriving DecidableEq

/-- The empty initial state (`Vec::new()`, `MultiSet::new()`). -/
def ProcState.initial : ProcState := ⟨[], MultiSet.new⟩

/-- Embeds `line.new_lineno().or_else(|| line.old_lineno())` (src/main.rs
lines 296-298). -/
def firstLineno (ev : DiffLineEvent) : Option Nat :=
  match ev.newLineno with
  | some n => some n
  | none => ev.oldLineno

/-- Embeds the binding `let file = if added ... else ...` choosing between
`delta.new_file()` and `delta.old_file()`
(src/main.rs lines 284-288). -/
def selectedFile (added : Bool) (ev : DiffLineEvent) : DiffFile :=
  if added then ev.newFile else ev.oldFile

/-- The per-line callback body (src/main.rs lines 278-327): classify the
origin, skip binary files, decode UTF-8 (failing the run on error), trim,
take the line number (failing on the violated invariant), resolve the path
(skipping when absent), and on a pattern match either record an added `Line`
or insert the content into the removed multiset. -/
def processLine (search : Matcher) (st : ProcState) (ev : DiffLineEvent) :
    Except ProcError ProcState :=
  match (match ev.origin with
      | DiffLineType.addition => some true
      | DiffLineType.deletion => some false
      | DiffLineType.other => none) with
  | none => .ok st
  | some added =>
    if (selectedFile added ev).binary then .ok st
    else
      match utf8Decode ev.content with
      | none => .error .encodingError
      | some rawContent =>
        match firstLineno ev with
        | none => .error .missingLineno
        | some lineno =>
          match (selectedFile added ev).path with
          | none => .ok st
          | some path =>
            match search.find (trimChars rawContent) with
            | none => .ok st
            | some rng =>
              if added then
                .ok { st with addedLines := st.addedLines
                  ++ [⟨trimChars rawContent, rng, lineno, path⟩] }
              else
                .ok { st with removedLines :=
                  st.removedLines.insert (trimChars rawContent) }

/-- The `diff.print` driving loop as seen through the wrapper's closure
(src/main.rs lines 370-378): feed events to the callback in order, stopping
at the first callback error (the closure returns `false`), and report the
final state together with the first callback error, if any. -/
def printLoop (search : Matcher) (st : ProcState) :
    List DiffLineEvent → ProcState × Option ProcError
  | [] => (st, none)
  | ev :: rest =>
    match processLine search st ev with
    | .ok st' => printLoop search st' rest
    | .error e => (st, some e)

/-- Embeds `process_diff` (src/main.rs lines 358-381): run the callback-driven
iteration; `printResult` is the producer's own verdict on the iteration
(which may independently be a failure).  The final result is
`cb_result.and(print_result)`: the callback's first error wins, otherwise
the producer's failure, otherwise the accumulated state. -/
def process_diff (search : Matcher) (events : List DiffLineEvent)
    (printResult : Except ProcError Unit) (st0 : ProcState) :
    Except ProcError ProcState :=
  match (printLoop search st0 events).2 with
  | some e => .error e
  | none =>
    match printResult with
    | .ok _ => .ok (printLoop search st0 events).1
    | .error e => .error e

/-- The diff-processing stage of `main` followed by the output loop
(src/main.rs lines 275-339): on any processing error nothing is printed;
on success the deduplicated added lines are printed in order. -/
def gbgOutput (search : Matcher) (events : List DiffLineEvent)
    (printResult : Except ProcError Unit) : Except ProcError (List Line) :=
  match process_diff search events printResult ProcState.initial with
  | .error e => .error e
  | .ok st => .ok (emitLines st.removedLines st.addedLines)

/-- The three slices taken by the colored `Display` rendering
(src/main.rs lines 85-87): `&content[..range.start]`,
`&content[range.clone()]`, `&content[range.end..]`. -/
def renderSlices (l : Line) : List Char × List Char × List Char :=
  (l.content.take l.range.1,
   (l.content.drop l.range.1).take (l.range.2 - l.range.1),
   l.content.drop l.range.2)

/-! ## Reference Resolver (src/main.rs lines 168-248)

The git2 repository is the external collaborator; it is modelled as a record
of the operations the program consumes: commits are opaque `Nat`
identifiers. -/

/-- The repository collaborator.  `head` is `repo.head()` peeled to a
commit; `findReference`/`resolveShortName` are `find_reference` /
`resolve_reference_from_short_name` peeled to commits; `mergeBase` is
`repo.merge_base`; `findCommit` is `repo.find_commit`; `parentCount` is
`commit.parent_count()`; `revwalkHead` is the commit sequence yielded by a
revwalk pushed at HEAD. -/
structure Repo where
  head : Option Nat
  findReference : String → Option Nat
  resolveShortName : String → Option Nat
  mergeBase : Nat → Nat → Option Nat
  findCommit : Nat → Option Nat
  parentCount : Nat → Nat
  revwalkHead : List Nat

/-- Errors of the resolution stage, one per `context`/`bail!` site in
src/main.rs lines 168-248 (plus the repository-open failure). -/
inductive ResolveError
  | conflictingOptions
  | openRepoError
  | resolveBaseRefError
  | resolveHeadError
  | rootBranchNotFound
  | resolveParentError
  | findRootCommitError
  | rootCommitNotFound
  | sameRef
  | mergeBaseError
deriving DecidableEq

/-- The root-branch head: the first of `refs/heads/master`,
`refs/heads/main` that resolves (src/main.rs lines 190-197). -/
def rootBranchHead (repo : Repo) : Option Nat :=
  ["refs/heads/master", "refs/heads/main"].findSome? repo.findReference

/-- Parent-commit resolution (src/main.rs lines 198-205): the named parent
branch when given, the root-branch head otherwise. -/
def resolveParent (repo : Repo) (rootC : Nat) :
    Option String → Except ResolveError Nat
  | some n =>
    match repo.findReference ("refs/heads/" ++ n) with
    | some c => .ok c
    | none => .error .resolveParentError
  | none => .ok rootC

/-- The revwalk search for the zero-parent root commit (src/main.rs
lines 215-234): the first commit in the walk with no parents. -/
def findRootCommit (repo : Repo) : List Nat → Except ResolveError Nat
  | [] => .error .rootCommitNotFound
  | id :: rest =>
    match repo.findCommit id with
    | none => .error .findRootCommitError
    | some c =>
      if repo.parentCount c = 0 then .ok c else findRootCommit repo rest

/-- Embeds `merge_base` followed by `find_commit` (src/main.rs lines 242-245). -/
def mergeBaseCommit (repo : Repo) (a b : Nat) : Option Nat :=
  match repo.mergeBase a b with
  | some id => repo.findCommit id
  | none => none

/-- Base-commit resolution given an open repository (src/main.rs
lines 176-248): direct base reference, else compare HEAD with the parent
commit and pick merge-base / history root / `SameRef` failure. -/
def resolveBaseCommit (parentBranchName baseCommitRef : Option String)
    (repo : Repo) : Except ResolveError Nat :=
  match baseCommitRef with
  | some r =>
    match repo.resolveShortName r with
    | some c => .ok c
    | none => .error .resolveBaseRefError
  | none =>
    match repo.head with
    | none => .error .resolveHeadError
    | some headC =>
      match rootBranchHead repo with
      | none => .error .rootBranchNotFound
      | some rootC =>
        match resolveParent repo rootC parentBranchName with
        | .error e => .error e
        | .ok parentC =>
          if headC = parentC then
            if headC = rootC then findRootCommit repo repo.revwalkHead
            else .error .sameRef
          else
            match mergeBaseCommit repo headC parentC with
            | some c => .ok c
            | none => .error .mergeBaseError

/-- The resolution stage of `main` from the top (src/main.rs lines 168-248):
the mutual-exclusion check on the two base-selection options comes first,
before the repository is even opened (`repoOpen = none` models a repository
that would fail to open). -/
def runResolve (parentBranchName baseCommitRef : Option String)
    (repoOpen : Option Repo) : Except ResolveError Nat :=
  if parentBranchName.isSome && baseCommitRef.isSome then
    .error .conflictingOptions
  else
    match repoOpen with
    | none => .error .openRepoError
    | some repo => resolveBaseCommit parentBranchName baseCommitRef repo

/-! ## Concrete instances used to exercise the theorems -/

/-- A concrete well-formed multiset over `Nat` keys. -/
def msW : MultiSet Nat := ⟨[(0, 2), (1, 1)]⟩

/-- A concrete matcher: first character of any nonempty string. -/
def mW : Matcher := ⟨fun cs => if cs.length = 0 then none else some (0, 1)⟩

/-- The ASCII whitespace bytes (which `char::is_whitespace` accepts after
decoding). -/
def isAsciiWsByte (b : Nat) : Bool :=
  b = 0x20 || b = 0x09 || b = 0x0A || b = 0x0D

/-- A concrete added diff line: content `" foo"` at line 3 of `b.txt`. -/
def evA : DiffLineEvent :=
  ⟨.addition, [0x20, 0x66, 0x6F, 0x6F], some 3, none,
    ⟨false, some "b.txt"⟩, ⟨false, none⟩⟩

/-- A concrete removed diff line: content `"foo "` at line 7 of `a.txt`. -/
def evR : DiffLineEvent :=
  ⟨.deletion, [0x66, 0x6F, 0x6F, 0x20], none, some 7,
    ⟨false, none⟩, ⟨false, some "a.txt"⟩⟩

/-- A concrete added diff line whose content byte `0xFF` is not UTF-8. -/
def badEv : DiffLineEvent :=
  ⟨.addition, [0xFF], some 1, none, ⟨false, some "c.txt"⟩, ⟨false, none⟩⟩

/-- A concrete repository: HEAD = 2 on branch `dev`, root branch `master`
at 1, a `feature` branch at 3, merge bases 2∧1 = 0 and 2∧3 = 4. -/
def repoW : Repo :=
  { head := some 2
    findReference := fun s =>
      if s = "refs/heads/master" then some 1
      else if s = "refs/heads/dev" then some 2
      else if s = "refs/heads/feature" then some 3
      else none
    resolveShortName := fun s => if s = "v1.0" then some 9 else none
    mergeBase := fun a b =>
      if a = 2 && b = 1 then some 0
      else if a = 2 && b = 3 then some 4
      else none
    findCommit := fun n => if n ≤ 4 then some n else none
    parentCount := fun n => if n = 0 then 0 else 1
    revwalkHead := [2, 1, 0] }

/-- A concrete repository whose HEAD = 2 is the `master` tip, with a
`feature` branch at 1 and merge base 2∧1 = 1; the unique zero-parent
ancestor is 0. -/
def repoCx : Repo :=
  { head := some 2
    findReference := fun s =>
      if s = "refs/heads/master" then some 2
      else if s = "refs/heads/feature" then some 1
      else none
    resolveShortName := fun _ => none
    mergeBase := fun a b => if a = 2 && b = 1 then some 1 else none
    findCommit := fun n => if n ≤ 2 then some n else none
    parentCount := fun n => if n = 0 then 0 else 1
    revwalkHead := [2, 1, 0] }

/-! ## Lemmas and claim theorems -/

/-! ### Entry-level lemmas -/

theorem memEntry_iff {T : Type} [DecidableEq T] (es : List (T × Nat)) (k : T) :
    memEntry es k = true ↔ k ∈ es.map Prod.fst := by
  induction es with
  | nil => simp [memEntry]
  | cons p rest ih =>
    by_cases h : p.1 = k <;> simp [memEntry, h, ih]
    exact fun h' => (h h'.symm).elim

theorem countEntry_eq_zero_of_not_mem {T : Type} [DecidableEq T]
    (es : List (T × Nat)) (k : T) (h : memEntry es k = false) :
    countEntry es k = 0 := by
  induction es with
  | nil => simp [countEntry]
  | cons p rest ih =>
    by_cases hp : p.1 = k <;> simp_all [memEntry, countEntry, hp]

theorem countEntry_pos_of_mem {T : Type} [DecidableEq T]
    (es : List (T × Nat)) (k : T) (hpos : ∀ p ∈ es, 0 < p.2)
    (h : memEntry es k = true) : 0 < countEntry es k := by
  induction es with
  | nil => simp [memEntry] at h
  | cons p rest ih =>
    by_cases hp : p.1 = k
    · simpa [countEntry, hp] using hpos p (by simp)
    · simp only [countEntry, if_neg hp]
      exact ih (fun q hq => hpos q (by simp [hq])) (by simpa [memEntry, hp] using h)

theorem countEntry_insertEntry {T : Type} [DecidableEq T]
    (es : List (T × Nat)) (k c : T) :
    countEntry (insertEntry es k) c
      = countEntry es c + (if k = c then 1 else 0) := by
  induction es with
  | nil => by_cases h : k = c <;> simp [insertEntry, countEntry, h]
  | cons p rest ih =>
    by_cases h1 : p.1 = k
    · by_cases h2 : p.1 = c
      · have hkc : k = c := h1 ▸ h2
        simp [insertEntry, countEntry, h1, h2, hkc]
      · have hkc : ¬ k = c := fun hh => h2 (h1 ▸ hh)
        simp [insertEntry, countEntry, h1, h2, hkc]
    · by_cases h2 : p.1 = c
      · have hck : ¬ c = k := fun hh => h1 (h2 ▸ hh)
        have hkc : ¬ k = c := fun hh => hck hh.symm
        simp [insertEntry, countEntry, h1, h2, hck, hkc]
      · simp [insertEntry, countEntry, h1, h2, ih]

theorem keys_insertEntry {T : Type} [DecidableEq T]
    (es : List (T × Nat)) (k : T) :
    (insertEntry es k).map Prod.fst
      = if memEntry es k then es.map Prod.fst else es.map Prod.fst ++ [k] := by
  induction es with
  | nil => simp [insertEntry, memEntry]
  | cons p rest ih =>
    by_cases h : p.1 = k <;> simp [insertEntry, memEntry, h, ih] <;>
      split <;> simp

theorem pos_insertEntry {T : Type} [DecidableEq T]
    (es : List (T × Nat)) (k : T) (hpos : ∀ p ∈ es, 0 < p.2) :
    ∀ p ∈ insertEntry es k, 0 < p.2 := by
  induction es with
  | nil => simp [insertEntry]
  | cons q rest ih =>
    intro p hp
    by_cases h : q.1 = k
    · simp only [insertEntry, if_pos h, List.mem_cons] at hp
      rcases hp with hp | hp
      · simp [hp]
      · exact hpos p (List.mem_cons_of_mem _ hp)
    · simp only [insertEntry, if_neg h, List.mem_cons] at hp
      rcases hp with hp | hp
      · exact hpos p (hp ▸ List.mem_cons_self _ _)
      · exact ih (fun q' hq' => hpos q' (List.mem_cons_of_mem _ hq')) p hp

theorem removeEntry_snd {T : Type} [DecidableEq T] (es : List (T × Nat)) (k : T) :
    (removeEntry es k).2 = memEntry es k := by
  induction es with
  | nil => simp [removeEntry, memEntry]
  | cons p rest ih =>
    by_cases h : p.1 = k <;> simp [removeEntry, memEntry, h, ih]

theorem keys_removeEntry_sublist {T : Type} [DecidableEq T]
    (es : List (T × Nat)) (k : T) :
    ((removeEntry es k).1.map Prod.fst).Sublist (es.map Prod.fst) := by
  induction es with
  | nil => simp [removeEntry]
  | cons p rest ih =>
    by_cases h : p.1 = k
    · simp only [removeEntry, if_pos h]
      split
      · exact (List.sublist_cons_self _ _)
      · simp
    · simp only [removeEntry, if_neg h, List.map_cons]
      exact ih.cons₂ p.1

theorem pos_removeEntry {T : Type} [DecidableEq T]
    (es : List (T × Nat)) (k : T) (hpos : ∀ p ∈ es, 0 < p.2) :
    ∀ p ∈ (removeEntry es k).1, 0 < p.2 := by
  induction es with
  | nil => simp [removeEntry]
  | cons q rest ih =>
    intro p hp
    by_cases h : q.1 = k
    · simp only [removeEntry, if_pos h] at hp
      split at hp
      · exact hpos p (List.mem_cons_of_mem _ hp)
      · rw [List.mem_cons] at hp
        rcases hp with hp | hp
        · have hq : 0 < q.2 := hpos q (List.mem_cons_self _ _)
          have h2 : p.2 = q.2 - 1 := by rw [hp]
          rename_i hq1
          omega
        · exact hpos p (List.mem_cons_of_mem _ hp)
    · simp only [removeEntry, if_neg h, List.mem_cons] at hp
      rcases hp with hp | hp
      · exact hpos p (hp ▸ List.mem_cons_self _ _)
      · exact ih (fun q' hq' => hpos q' (List.mem_cons_of_mem _ hq')) p hp

theorem countEntry_removeEntry_ne {T : Type} [DecidableEq T]
    (es : List (T × Nat)) (k c : T) (hne : c ≠ k) :
    countEntry (removeEntry es k).1 c = countEntry es c := by
  induction es with
  | nil => simp [removeEntry]
  | cons p rest ih =>
    by_cases h : p.1 = k
    · simp only [removeEntry, if_pos h]
      have hpc : ¬ p.1 = c := by rw [h]; exact fun hh => hne hh.symm
      split
      · simp [countEntry, if_neg hpc]
      · simp [countEntry, if_neg hpc]
    · simp only [removeEntry, if_neg h]
      by_cases h2 : p.1 = c <;> simp [countEntry, h2, ih]

theorem countEntry_removeEntry_self {T : Type} [DecidableEq T]
    (es : List (T × Nat)) (k : T) (hnd : (es.map Prod.fst).Nodup) :
    countEntry (removeEntry es k).1 k = countEntry es k - 1 := by
  induction es with
  | nil => simp [removeEntry, countEntry]
  | cons p rest ih =>
    simp only [List.map_cons, List.nodup_cons] at hnd
    by_cases h : p.1 = k
    · simp only [removeEntry, if_pos h]
      have hmem : memEntry rest k = false := by
        rcases hm : memEntry rest k with _ | _
        · rfl
        · exact absurd (h ▸ (memEntry_iff rest k).mp hm) hnd.1
      split
      · rename_i hc1
        rw [countEntry_eq_zero_of_not_mem rest k hmem]
        simp [countEntry, h, hc1]
      · simp [countEntry, h]
    · simp only [removeEntry, if_neg h]
      simp [countEntry, h, ih hnd.2]

theorem memEntry_removeEntry_self {T : Type} [DecidableEq T]
    (es : List (T × Nat)) (k : T) (hnd : (es.map Prod.fst).Nodup)
    (hc : countEntry es k = 1) :
    memEntry (removeEntry es k).1 k = false := by
  induction es with
  | nil => simp [removeEntry, memEntry]
  | cons p rest ih =>
    simp only [List.map_cons, List.nodup_cons] at hnd
    by_cases h : p.1 = k
    · simp only [removeEntry, if_pos h]
      have h1 : p.2 = 1 := by simpa [countEntry, h] using hc
      rw [if_pos h1]
      rcases hm : memEntry rest k with _ | _
      · rfl
      · exact absurd (h ▸ (memEntry_iff rest k).mp hm) hnd.1
    · simp only [removeEntry, if_neg h]
      simp only [memEntry, if_neg h]
      exact ih hnd.2 (by simpa [countEntry, h] using hc)

/-- C9 helper: lifted well-formedness preservation for `insert`. -/
theorem MultiSet.insert_wf {T : Type} [DecidableEq T]
    (m : MultiSet T) (k : T) (h : m.wf) : (m.insert k).wf := by
  obtain ⟨hnd, hpos⟩ := h
  refine ⟨?_, pos_insertEntry m.entries k hpos⟩
  rw [MultiSet.insert, keys_insertEntry]
  split
  · exact hnd
  · rename_i hmem
    have hk : k ∉ m.entries.map Prod.fst := fun hk =>
      by simp [(memEntry_iff m.entries k).mpr hk] at hmem
    exact hnd.append (List.nodup_singleton k)
      (fun a ha hb => by rw [List.mem_singleton] at hb; exact hk (hb ▸ ha))

/-- C9 helper: lifted well-formedness preservation for `remove`. -/
theorem MultiSet.remove_wf {T : Type} [DecidableEq T]
    (m : MultiSet T) (k : T) (h : m.wf) : (m.remove k).1.wf := by
  obtain ⟨hnd, hpos⟩ := h
  exact ⟨hnd.sublist (keys_removeEntry_sublist m.entries k),
    pos_removeEntry m.entries k hpos⟩

theorem MultiSet.count_insert {T : Type} [DecidableEq T]
    (m : MultiSet T) (k c : T) :
    (m.insert k).count c = m.count c + (if k = c then 1 else 0) :=
  countEntry_insertEntry m.entries k c

theorem MultiSet.remove_snd {T : Type} [DecidableEq T] (m : MultiSet T) (k : T) :
    (m.remove k).2 = m.mem k :=
  removeEntry_snd m.entries k

theorem MultiSet.count_remove_ne {T : Type} [DecidableEq T]
    (m : MultiSet T) (k c : T) (hne : c ≠ k) :
    (m.remove k).1.count c = m.count c :=
  countEntry_removeEntry_ne m.entries k c hne

theorem MultiSet.count_remove_self {T : Type} [DecidableEq T]
    (m : MultiSet T) (k : T) (h : m.wf) :
    (m.remove k).1.count k = m.count k - 1 :=
  countEntry_removeEntry_self m.entries k h.1

theorem MultiSet.mem_iff_count_pos {T : Type} [DecidableEq T]
    (m : MultiSet T) (k : T) (h : m.wf) :
    m.mem k = true ↔ 0 < m.count k := by
  constructor
  · exact countEntry_pos_of_mem m.entries k h.2
  · intro hc
    rcases hm : m.mem k with _ | _
    · rw [MultiSet.count, countEntry_eq_zero_of_not_mem m.entries k hm] at hc
      exact absurd hc (by omega)
    · rfl

theorem buildRemoved_aux_wf (cs : List (List Char)) :
    ∀ m : MultiSet (List Char), m.wf → (cs.foldl MultiSet.insert m).wf := by
  induction cs with
  | nil => intro m hm; simpa using hm
  | cons c rest ih =>
    intro m hm
    simpa using ih (m.insert c) (m.insert_wf c hm)

theorem buildRemoved_wf (cs : List (List Char)) : (buildRemoved cs).wf :=
  buildRemoved_aux_wf cs MultiSet.new (by constructor <;> simp [MultiSet.new])

theorem buildRemoved_aux_count (C : List Char) (cs : List (List Char)) :
    ∀ m : MultiSet (List Char),
    (cs.foldl MultiSet.insert m).count C
      = m.count C + cs.countP (fun x => decide (x = C)) := by
  induction cs with
  | nil => intro m; simp
  | cons c rest ih =>
    intro m
    rw [List.foldl_cons, ih (m.insert c), MultiSet.count_insert,
      List.countP_cons]
    by_cases h : c = C <;> simp [h] <;> omega

theorem buildRemoved_count (C : List Char) (cs : List (List Char)) :
    (buildRemoved cs).count C = cs.countP (fun x => decide (x = C)) := by
  rw [buildRemoved, buildRemoved_aux_count]
  simp [MultiSet.new, MultiSet.count, countEntry]

/-- Core cancellation lemma: over any well-formed removed-content multiset,
the emitted lines with content `C` are exactly the filtered added lines with
the first `count C` of them dropped. -/
theorem emitLines_filter (C : List Char) :
    ∀ (added : List Line) (m : MultiSet (List Char)), m.wf →
    (emitLines m added).filter (fun l => decide (l.content = C))
      = ((added.filter (fun l => decide (l.content = C))).drop (m.count C)) := by
  intro added
  induction added with
  | nil => intro m _; simp [emitLines]
  | cons l rest ih =>
    intro m hm
    have hwf' : (m.remove l.content).1.wf := m.remove_wf l.content hm
    by_cases hC : l.content = C
    · subst hC
      rcases hmem : m.mem l.content with _ | _
      · have hr : (m.remove l.content).2 = false := by
          rw [MultiSet.remove_snd, hmem]
        have hc0 : m.count l.content = 0 := countEntry_eq_zero_of_not_mem _ _ hmem
        have hc0' : (m.remove l.content).1.count l.content = 0 := by
          rw [MultiSet.count_remove_self _ _ hm, hc0]
        rw [emitLines, hr]
        simp only [if_neg (by simp : ¬ false = true)]
        rw [List.filter_cons_of_pos (by simp), ih _ hwf', hc0', hc0]
        simp
      · have hr : (m.remove l.content).2 = true := by
          rw [MultiSet.remove_snd, hmem]
        have hcpos : 0 < m.count l.content :=
          (m.mem_iff_count_pos l.content hm).mp hmem
        rw [emitLines, hr]
        simp only [if_true]
        rw [ih _ hwf', MultiSet.count_remove_self _ _ hm,
          List.filter_cons_of_pos (by simp)]
        have hsucc : m.count l.content = (m.count l.content - 1) + 1 := by omega
        rw [hsucc, List.drop_succ_cons, Nat.add_sub_cancel]
    · have hcount : (m.remove l.content).1.count C = m.count C :=
        MultiSet.count_remove_ne _ _ _ (fun hh => hC hh.symm)
      rw [emitLines]
      rcases hr : (m.remove l.content).2 with _ | _
      · simp only [if_neg (by simp : ¬ false = true)]
        rw [List.filter_cons_of_neg (by simpa using hC),
          List.filter_cons_of_neg (by simpa using hC), ih _ hwf', hcount]
      · simp only [if_true]
        rw [List.filter_cons_of_neg (by simpa using hC), ih _ hwf', hcount]

theorem mW_wf : mW.wf := by
  intro cs s e h
  unfold mW at h
  simp only at h
  split at h
  · exact absurd h (by simp)
  · rename_i hlen
    obtain ⟨hs, he⟩ : s = 0 ∧ e = 1 := by
      have := Option.some.inj h
      exact ⟨congrArg Prod.fst this.symm, congrArg Prod.snd this.symm⟩
    subst hs; subst he
    omega

/-! ## Claim theorems -/

/-- C9: in the removed-content multiset, every stored entry has a strictly
positive count (presence is equivalent to `count > 0`), and both `insert`
and `remove` preserve this; `remove` decrements by one, deletes the entry
when the count reaches zero, and returns `true` iff the key was present
before the call. -/
theorem multiset_invariant {T : Type} [DecidableEq T]
    (m : MultiSet T) (k : T) (h : m.wf) :
    (m.insert k).wf
    ∧ (m.remove k).1.wf
    ∧ ((m.remove k).2 = true ↔ m.mem k = true)
    ∧ (m.mem k = true ↔ 0 < m.count k)
    ∧ (m.remove k).1.count k = m.count k - 1
    ∧ (m.count k = 1 → (m.remove k).1.mem k = false) :=
  ⟨m.insert_wf k h, m.remove_wf k h,
   by rw [MultiSet.remove_snd],
   m.mem_iff_count_pos k h,
   m.count_remove_self k h,
   fun hc => memEntry_removeEntry_self m.entries k h.1 hc⟩

/-- Witness for `multiset_invariant` at the concrete multiset `msW` and
key `0`. -/
theorem multiset_invariant_witness :
    msW.wf
    ∧ ((msW.insert 0).wf
      ∧ (msW.remove 0).1.wf
      ∧ ((msW.remove 0).2 = true ↔ msW.mem 0 = true)
      ∧ (msW.mem 0 = true ↔ 0 < msW.count 0)
      ∧ (msW.remove 0).1.count 0 = msW.count 0 - 1
      ∧ (msW.count 0 = 1 → (msW.remove 0).1.mem 0 = false)) :=
  ⟨by decide, multiset_invariant msW 0 (by decide)⟩

/-- C1: dedup cancellation law.  For any stream with `k` removed matching
lines of content `C` (counted in `removeds`) and `m` added matching lines of
content `C`, the emitted lines of content `C` are exactly the last
`m - k` (truncated at 0, i.e. `max(m-k,0)`) of the added ones in original
order — consumption is first-seen-added-first, so the dropped ones are the
earliest. -/
theorem dedup_cancellation (removeds : List (List Char)) (added : List Line)
    (C : List Char) :
    (emitLines (buildRemoved removeds) added).filter
        (fun l => decide (l.content = C))
      = ((added.filter (fun l => decide (l.content = C))).drop
          (removeds.countP (fun x => decide (x = C))))
    ∧ ((emitLines (buildRemoved removeds) added).filter
        (fun l => decide (l.content = C))).length
      = (added.filter (fun l => decide (l.content = C))).length
          - removeds.countP (fun x => decide (x = C)) := by
  have h := emitLines_filter C added (buildRemoved removeds)
    (buildRemoved_wf removeds)
  rw [buildRemoved_count] at h
  exact ⟨h, by rw [h, List.length_drop]⟩

/-- C4: supplying both a parent-branch name and an explicit base reference
fails with `ConflictingOptions` regardless of everything else, and the check
precedes repository resolution (it fires even when the repository would fail
to open, `repoOpen = none`). -/
theorem conflicting_options (p b : String) (repoOpen : Option Repo) :
    runResolve (some p) (some b) repoOpen = .error .conflictingOptions := by
  simp [runResolve]

/-- C5: an explicitly named parent branch resolving to HEAD's commit while
HEAD is not the root-branch tip fails with `SameRef` (no fallback to the
history root). -/
theorem same_ref_error (repo : Repo) (n : String) (h r : Nat)
    (hh : repo.head = some h)
    (hr : rootBranchHead repo = some r)
    (hp : repo.findReference ("refs/heads/" ++ n) = some h)
    (hne : h ≠ r) :
    resolveBaseCommit (some n) none repo = .error .sameRef := by
  simp [resolveBaseCommit, hh, hr, resolveParent, hp, hne]

/-- Witness for `same_ref_error`: in `repoW`, branch `dev` resolves to
HEAD's commit 2 while the root branch tip is 1. -/
theorem same_ref_error_witness :
    repoW.head = some 2
    ∧ rootBranchHead repoW = some 1
    ∧ repoW.findReference ("refs/heads/" ++ "dev") = some 2
    ∧ (2 : Nat) ≠ 1
    ∧ resolveBaseCommit (some "dev") none repoW = .error .sameRef :=
  ⟨by decide, by decide, by decide, by decide,
    same_ref_error repoW "dev" 2 1 (by decide) (by decide) (by decide)
      (by decide)⟩

/-- C2: with no explicit base reference and HEAD's commit differing from
the parent commit (the resolved parent branch if named, else the root-branch
tip), resolution returns the merge-base of HEAD and the parent commit; in
particular, with no parent branch named, whenever HEAD is not the
root-branch tip the merge-base of HEAD and the root-branch tip is
returned. -/
theorem merge_base_resolution (repo : Repo) :
    (∀ (parentName : Option String) (h r p c : Nat),
      repo.head = some h →
      rootBranchHead repo = some r →
      resolveParent repo r parentName = .ok p →
      h ≠ p →
      mergeBaseCommit repo h p = some c →
      resolveBaseCommit parentName none repo = .ok c)
    ∧ (∀ (h r c : Nat),
      repo.head = some h →
      rootBranchHead repo = some r →
      h ≠ r →
      mergeBaseCommit repo h r = some c →
      resolveBaseCommit none none repo = .ok c) := by
  constructor
  · intro parentName h r p c hh hr hp hne hmb
    simp [resolveBaseCommit, hh, hr, hp, hne, hmb]
  · intro h r c hh hr hne hmb
    simp [resolveBaseCommit, hh, hr, resolveParent, hne, hmb]

/-- Witness for `merge_base_resolution` on `repoW`: diffing against the
`feature` branch returns merge-base 4; with no parent named it returns the
merge-base 0 with the `master` tip. -/
theorem merge_base_resolution_witness :
    repoW.head = some 2
    ∧ rootBranchHead repoW = some 1
    ∧ resolveParent repoW 1 (some "feature") = .ok 3
    ∧ (2 : Nat) ≠ 3
    ∧ mergeBaseCommit repoW 2 3 = some 4
    ∧ resolveBaseCommit (some "feature") none repoW = .ok 4
    ∧ (2 : Nat) ≠ 1
    ∧ mergeBaseCommit repoW 2 1 = some 0
    ∧ resolveBaseCommit none none repoW = .ok 0 :=
  ⟨by decide, by decide, by decide, by decide, by decide,
    (merge_base_resolution repoW).1 (some "feature") 2 1 3 4 (by decide)
      (by decide) (by decide) (by decide) (by decide),
    by decide, by decide,
    (merge_base_resolution repoW).2 2 1 0 (by decide) (by decide) (by decide)
      (by decide)⟩

theorem findRootCommit_eq (repo : Repo) (rc : Nat) :
    ∀ walk : List Nat,
    rc ∈ walk →
    (∀ id ∈ walk, repo.findCommit id = some id) →
    repo.parentCount rc = 0 →
    (∀ id ∈ walk, repo.parentCount id = 0 → id = rc) →
    findRootCommit repo walk = .ok rc := by
  intro walk
  induction walk with
  | nil => intro hmem; simp at hmem
  | cons a rest ih =>
    intro hmem hfind hzero huniq
    rw [findRootCommit, hfind a (List.mem_cons_self _ _)]
    by_cases ha : repo.parentCount a = 0
    · have heq : a = rc := huniq a (List.mem_cons_self _ _) ha
      subst heq
      simp [ha]
    · simp only [if_neg ha]
      have hrc : rc ∈ rest := by
        rcases List.mem_cons.mp hmem with h | h
        · exact absurd (h ▸ hzero) ha
        · exact h
      exact ih hrc (fun id hid => hfind id (List.mem_cons_of_mem _ hid)) hzero
        (fun id hid => huniq id (List.mem_cons_of_mem _ hid))

/-- C3 (amended): when no explicit base reference is given, HEAD's commit
equals the resolved root-branch tip's commit, and the parent commit also
resolves to HEAD's commit (in particular, when no parent branch is named),
base-commit resolution walks the ancestry from HEAD and returns the unique
zero-parent ancestor of HEAD as the base commit. -/
theorem root_commit_resolution (repo : Repo) (parentName : Option String)
    (h rc : Nat)
    (hh : repo.head = some h)
    (hr : rootBranchHead repo = some h)
    (hp : resolveParent repo h parentName = .ok h)
    (hfind : ∀ id ∈ repo.revwalkHead, repo.findCommit id = some id)
    (hmem : rc ∈ repo.revwalkHead)
    (hzero : repo.parentCount rc = 0)
    (huniq : ∀ id ∈ repo.revwalkHead, repo.parentCount id = 0 → id = rc) :
    resolveBaseCommit parentName none repo = .ok rc := by
  simp only [resolveBaseCommit, hh, hr, hp]
  exact findRootCommit_eq repo rc repo.revwalkHead hmem hfind hzero huniq

/-- C3 counterexample: in `repoCx`, HEAD (commit 2) is the `master` tip and
no explicit base reference is given, yet with parent branch `feature`
resolution returns commit 1 — a commit with a parent — rather than the
unique zero-parent ancestor 0. -/
theorem root_commit_resolution_counterexample :
    repoCx.head = some 2
    ∧ rootBranchHead repoCx = some 2
    ∧ repoCx.parentCount 0 = 0
    ∧ (∀ id ∈ repoCx.revwalkHead, repoCx.parentCount id = 0 → id = 0)
    ∧ resolveBaseCommit (some "feature") none repoCx = .ok 1
    ∧ (1 : Nat) ≠ 0
    ∧ repoCx.parentCount 1 ≠ 0 := by
  decide

/-- Witness for `root_commit_resolution` on `repoCx` with no parent branch
named: resolution walks to the zero-parent commit 0. -/
theorem root_commit_resolution_witness :
    repoCx.head = some 2
    ∧ rootBranchHead repoCx = some 2
    ∧ resolveParent repoCx 2 none = .ok 2
    ∧ (∀ id ∈ repoCx.revwalkHead, repoCx.findCommit id = some id)
    ∧ 0 ∈ repoCx.revwalkHead
    ∧ repoCx.parentCount 0 = 0
    ∧ (∀ id ∈ repoCx.revwalkHead, repoCx.parentCount id = 0 → id = 0)
    ∧ resolveBaseCommit none none repoCx = .ok 0 :=
  ⟨by decide, by decide, by decide, by decide, by decide, by decide,
    by decide,
    root_commit_resolution repoCx none 2 0 (by decide) (by decide)
      (by decide) (by decide) (by decide) (by decide) (by decide)⟩

/-- C7: whenever the per-line callback returns an error, that error is the
one `process_diff` returns, even if the producing iteration also reports a
failure of its own; `process_diff` returns `Ok` exactly when the callback
never errored and the producer's iteration succeeded. -/
theorem process_diff_error_priority (search : Matcher) (st0 : ProcState)
    (events : List DiffLineEvent) (printResult : Except ProcError Unit) :
    (∀ e, (printLoop search st0 events).2 = some e →
      process_diff search events printResult st0 = .error e)
    ∧ ((∃ st, process_diff search events printResult st0 = .ok st)
        ↔ ((printLoop search st0 events).2 = none ∧ printResult = .ok ())) := by
  constructor
  · intro e he
    simp [process_diff, he]
  · constructor
    · rintro ⟨st, hst⟩
      unfold process_diff at hst
      rcases h2 : (printLoop search st0 events).2 with _ | e
      · rw [h2] at hst
        simp only at hst
        cases printResult with
        | ok u => exact ⟨rfl, rfl⟩
        | error e => exact absurd hst (by simp)
      · rw [h2] at hst
        exact absurd hst (by simp)
    · rintro ⟨h2, hpr⟩
      subst hpr
      exact ⟨(printLoop search st0 events).1, by simp [process_diff, h2]⟩

/-- Witness for `process_diff_error_priority`: the callback's encoding error
on `badEv` wins over the producer's independent `diffPrintError`. -/
theorem process_diff_error_priority_witness :
    (printLoop mW ProcState.initial [badEv]).2 = some ProcError.encodingError
    ∧ process_diff mW [badEv] (.error .diffPrintError) ProcState.initial
        = .error .encodingError :=
  ⟨by decide,
    (process_diff_error_priority mW ProcState.initial [badEv]
      (.error .diffPrintError)).1 .encodingError (by decide)⟩

theorem printLoop_append_of_ok (search : Matcher) :
    ∀ (xs ys : List DiffLineEvent) (st : ProcState),
    (printLoop search st xs).2 = none →
    printLoop search st (xs ++ ys)
      = printLoop search (printLoop search st xs).1 ys := by
  intro xs
  induction xs with
  | nil => intro ys st _; simp [printLoop]
  | cons ev rest ih =>
    intro ys st hok
    rw [List.cons_append, printLoop]
    rw [printLoop] at hok
    cases hev : processLine search st ev with
    | ok st' =>
      rw [hev] at hok
      simp only
      rw [ih ys st' hok]
      rw [printLoop, hev]
    | error e =>
      rw [hev] at hok
      simp at hok

theorem processLine_encoding_error (search : Matcher) (ev : DiffLineEvent)
    (horigin : ev.origin = DiffLineType.addition
      ∨ ev.origin = DiffLineType.deletion)
    (hbinary : (if ev.origin = DiffLineType.addition then ev.newFile
      else ev.oldFile).binary = false)
    (hdecode : utf8Decode ev.content = none) :
    ∀ st : ProcState, processLine search st ev = .error .encodingError := by
  intro st
  rcases horigin with ho | ho <;>
    simp [ho] at hbinary <;>
    simp [processLine, selectedFile, ho, hbinary, hdecode]

/-- C6: a diff stream containing an added or removed non-binary line whose
raw bytes are not valid UTF-8 (after any prefix that processes cleanly)
fails the whole run with the encoding error: no output lines at all are
produced, whatever events follow the failing line and whatever the
producer's own verdict is — iteration stops at the failing line. -/
theorem encoding_error_aborts (search : Matcher) (pre : List DiffLineEvent)
    (ev : DiffLineEvent)
    (hpre : (printLoop search ProcState.initial pre).2 = none)
    (horigin : ev.origin = DiffLineType.addition
      ∨ ev.origin = DiffLineType.deletion)
    (hbinary : (if ev.origin = DiffLineType.addition then ev.newFile
      else ev.oldFile).binary = false)
    (hdecode : utf8Decode ev.content = none) :
    ∀ (post : List DiffLineEvent) (printResult : Except ProcError Unit),
    gbgOutput search (pre ++ ev :: post) printResult
      = .error .encodingError := by
  intro post printResult
  have hloop : (printLoop search ProcState.initial (pre ++ ev :: post)).2
      = some ProcError.encodingError := by
    rw [printLoop_append_of_ok search pre (ev :: post) ProcState.initial hpre]
    rw [printLoop,
      processLine_encoding_error search ev horigin hbinary hdecode]
  simp [gbgOutput, process_diff, hloop]

/-- Witness for `encoding_error_aborts`: after the clean added line `evA`,
the invalid byte `0xFF` in `badEv` aborts the whole run even with a
trailing event. -/
theorem encoding_error_aborts_witness :
    (printLoop mW ProcState.initial [evA]).2 = none
    ∧ (badEv.origin = DiffLineType.addition
        ∨ badEv.origin = DiffLineType.deletion)
    ∧ (if badEv.origin = DiffLineType.addition then badEv.newFile
        else badEv.oldFile).binary = false
    ∧ utf8Decode badEv.content = none
    ∧ gbgOutput mW ([evA] ++ badEv :: [evR]) (.ok ())
        = .error .encodingError :=
  ⟨by decide, by decide, by decide, by decide,
    encoding_error_aborts mW [evA] badEv (by decide) (by decide) (by decide)
      (by decide) [evR] (.ok ())⟩

theorem processLine_addedLines (search : Matcher) (st : ProcState)
    (ev : DiffLineEvent) (st' : ProcState)
    (hok : processLine search st ev = .ok st') :
    st'.addedLines = st.addedLines
    ∨ ∃ cs rng lineno path, search.find cs = some rng
        ∧ st'.addedLines = st.addedLines ++ [⟨cs, rng, lineno, path⟩] := by
  unfold processLine at hok
  split at hok
  · injection hok with h; subst h; exact Or.inl rfl
  · split at hok
    · injection hok with h; subst h; exact Or.inl rfl
    · split at hok
      · exact Except.noConfusion hok
      · split at hok
        · exact Except.noConfusion hok
        · split at hok
          · injection hok with h; subst h; exact Or.inl rfl
          · split at hok
            · injection hok with h; subst h; exact Or.inl rfl
            · rename_i rng hfind
              split at hok
              · injection hok with h; subst h
                exact Or.inr ⟨_, rng, _, _, hfind, rfl⟩
              · injection hok with h; subst h; exact Or.inl rfl

theorem printLoop_addedLines_invariant (search : Matcher) (hwf : search.wf) :
    ∀ (events : List DiffLineEvent) (st : ProcState),
    (∀ l ∈ st.addedLines,
      l.range.1 ≤ l.range.2 ∧ l.range.2 ≤ l.content.length) →
    ∀ l ∈ (printLoop search st events).1.addedLines,
      l.range.1 ≤ l.range.2 ∧ l.range.2 ≤ l.content.length := by
  intro events
  induction events with
  | nil => intro st hinv; simpa [printLoop] using hinv
  | cons ev rest ih =>
    intro st hinv
    rw [printLoop]
    cases hev : processLine search st ev with
    | ok st' =>
      refine ih st' ?_
      rcases processLine_addedLines search st ev st' hev with h | h
      · rw [h]; exact hinv
      · obtain ⟨cs, rng, lineno, path, hfind, h⟩ := h
        rw [h]
        intro l hl
        rcases List.mem_append.mp hl with hl | hl
        · exact hinv l hl
        · rw [List.mem_singleton] at hl
          subst hl
          have := hwf cs rng.1 rng.2 (by simpa using hfind)
          simpa using this
    | error e => simpa using hinv

theorem renderSlices_append (l : Line) (h : l.range.1 ≤ l.range.2) :
    (renderSlices l).1 ++ (renderSlices l).2.1 ++ (renderSlices l).2.2
      = l.content := by
  unfold renderSlices
  simp only
  rw [← List.take_add]
  have he : l.range.1 + (l.range.2 - l.range.1) = l.range.2 := by omega
  rw [he, List.take_append_drop]

/-- C10: every `Line` recorded by the diff-processing pass stores the first
regex match's range on its own trimmed content; under the regex
collaborator's contract the endpoints are ordered and within bounds (in
this character-sequence model every index is a character boundary), so the
three slices taken by the colored rendering reassemble the content exactly —
rendering stays in bounds and cannot panic. -/
theorem line_range_safety (search : Matcher) (hwf : search.wf)
    (events : List DiffLineEvent) :
    ∀ l ∈ (printLoop search ProcState.initial events).1.addedLines,
      l.range.1 ≤ l.range.2 ∧ l.range.2 ≤ l.content.length
      ∧ (renderSlices l).1 ++ (renderSlices l).2.1 ++ (renderSlices l).2.2
          = l.content := by
  intro l hl
  have h := printLoop_addedLines_invariant search hwf events
    ProcState.initial (by simp [ProcState.initial]) l hl
  exact ⟨h.1, h.2, renderSlices_append l h.1⟩

/-- Witness for `line_range_safety`: the concrete matcher `mW` satisfies the
regex contract, and the lines collected from `[evA, evR]` satisfy the range
bounds and slice reassembly. -/
theorem line_range_safety_witness :
    mW.wf
    ∧ ∀ l ∈ (printLoop mW ProcState.initial [evA, evR]).1.addedLines,
        l.range.1 ≤ l.range.2 ∧ l.range.2 ≤ l.content.length
        ∧ (renderSlices l).1 ++ (renderSlices l).2.1 ++ (renderSlices l).2.2
            = l.content :=
  ⟨mW_wf, line_range_safety mW mW_wf [evA, evR]⟩

theorem wsByte_le (b : Nat) (h : isAsciiWsByte b = true) : b ≤ 0x7F := by
  simp [isAsciiWsByte] at h
  rcases h with ((h | h) | h) | h <;> subst h <;> decide

theorem isWs_ofNat_wsByte (b : Nat) (h : isAsciiWsByte b = true) :
    isWs (Char.ofNat b) = true := by
  simp [isAsciiWsByte] at h
  rcases h with ((h | h) | h) | h <;> subst h <;> decide

theorem utf8Go_zero_state (lo hi cp : Nat) (l : List Nat) :
    utf8Go 0 lo hi cp l = utf8Decode l := by
  cases l <;> rfl

set_option maxHeartbeats 1600000 in
theorem utf8Go_append (t : List Nat) :
    ∀ (bs : List Nat) (need lo hi cp : Nat) (cs : List Char),
    utf8Go need lo hi cp bs = some cs →
    utf8Go need lo hi cp (bs ++ t)
      = (utf8Decode t).map (fun ds => cs ++ ds) := by
  intro bs
  induction bs with
  | nil =>
    intro need lo hi cp cs h
    cases need with
    | zero =>
      simp only [utf8Go, Option.some.injEq] at h
      subst h
      simp only [List.nil_append]
      rw [utf8Go_zero_state]
      cases utf8Decode t <;> simp
    | succ n => simp [utf8Go] at h
  | cons b bs ih =>
    intro need lo hi cp cs h
    rw [List.cons_append]
    rcases need with _ | _ | need <;>
      simp only [utf8Go] at h ⊢ <;>
      split_ifs at h ⊢ <;>
      first
        | exact Option.noConfusion h
        | exact ih _ _ _ _ _ h
        | (obtain ⟨as, has, hcs⟩ := Option.map_eq_some'.mp h
           subst hcs
           rw [ih _ _ _ _ _ has]
           cases utf8Decode t <;> simp)

theorem utf8Decode_ascii : ∀ bs : List Nat, (∀ b ∈ bs, b ≤ 0x7F) →
    utf8Decode bs = some (bs.map Char.ofNat) := by
  intro bs
  induction bs with
  | nil => intro; rfl
  | cons b t ih =>
    intro h
    have hb : b ≤ 0x7F := h b (List.mem_cons_self _ _)
    show utf8Go 0 0 0 0 (b :: t) = _
    rw [utf8Go, if_pos hb, utf8Go_zero_state,
      ih (fun x hx => h x (List.mem_cons_of_mem _ hx))]
    simp

theorem utf8Decode_pad (bs : List Nat) (cs : List Char) (w1 w2 : List Nat)
    (hw1 : ∀ b ∈ w1, isAsciiWsByte b = true)
    (hw2 : ∀ b ∈ w2, isAsciiWsByte b = true)
    (hdec : utf8Decode bs = some cs) :
    utf8Decode (w1 ++ bs ++ w2)
      = some (w1.map Char.ofNat ++ cs ++ w2.map Char.ofNat) := by
  have h1 : utf8Decode w1 = some (w1.map Char.ofNat) :=
    utf8Decode_ascii w1 (fun b hb => wsByte_le b (hw1 b hb))
  have h2 : utf8Decode w2 = some (w2.map Char.ofNat) :=
    utf8Decode_ascii w2 (fun b hb => wsByte_le b (hw2 b hb))
  have hbs : utf8Decode (bs ++ w2) = some (cs ++ w2.map Char.ofNat) := by
    show utf8Go 0 0 0 0 (bs ++ w2) = _
    rw [utf8Go_append w2 bs 0 0 0 0 cs hdec, h2]
    rfl
  have hall : utf8Decode (w1 ++ (bs ++ w2))
      = some (w1.map Char.ofNat ++ (cs ++ w2.map Char.ofNat)) := by
    show utf8Go 0 0 0 0 (w1 ++ (bs ++ w2)) = _
    rw [utf8Go_append (bs ++ w2) w1 0 0 0 0 _ h1, hbs]
    rfl
  rw [List.append_assoc, hall, List.append_assoc]

theorem dropWhile_ws_append (ws cs : List Char)
    (hws : ∀ c ∈ ws, isWs c = true) :
    (ws ++ cs).dropWhile isWs = cs.dropWhile isWs := by
  induction ws with
  | nil => simp
  | cons w ws ih =>
    rw [List.cons_append,
      List.dropWhile_cons_of_pos (hws w (List.mem_cons_self _ _))]
    exact ih (fun c hc => hws c (List.mem_cons_of_mem _ hc))

theorem dropWhile_append_of_ne_nil (p : Char → Bool) :
    ∀ (a b : List Char), a.dropWhile p ≠ [] →
    (a ++ b).dropWhile p = a.dropWhile p ++ b := by
  intro a
  induction a with
  | nil => intro b h; exact absurd rfl h
  | cons x a ih =>
    intro b h
    rcases hx : p x with _ | _
    · rw [List.cons_append, List.dropWhile_cons_of_neg (by simp [hx]),
        List.dropWhile_cons_of_neg (by simp [hx]), List.cons_append]
    · rw [List.dropWhile_cons_of_pos hx] at h
      rw [List.cons_append, List.dropWhile_cons_of_pos hx,
        List.dropWhile_cons_of_pos hx]
      exact ih b h

theorem trimChars_pad (cs : List Char) (w1 w2 : List Char)
    (hw1 : ∀ c ∈ w1, isWs c = true) (hw2 : ∀ c ∈ w2, isWs c = true) :
    trimChars (w1 ++ cs ++ w2) = trimChars cs := by
  unfold trimChars
  rw [List.append_assoc, dropWhile_ws_append w1 (cs ++ w2) hw1]
  by_cases hnil : cs.dropWhile isWs = []
  · have hallws : ∀ c ∈ cs, isWs c = true := List.dropWhile_eq_nil_iff.mp hnil
    have : (cs ++ w2).dropWhile isWs = [] := by
      apply List.dropWhile_eq_nil_iff.mpr
      intro c hc
      rcases List.mem_append.mp hc with h | h
      · exact hallws c h
      · exact hw2 c h
    rw [this, hnil]
  · rw [dropWhile_append_of_ne_nil isWs cs w2 hnil, List.reverse_append,
      dropWhile_ws_append w2.reverse (cs.dropWhile isWs).reverse
        (fun c hc => hw2 c (List.mem_reverse.mp hc))]

theorem processLine_ws_pad (search : Matcher) (st : ProcState)
    (ev : DiffLineEvent) (cs : List Char) (w1 w2 : List Nat)
    (hw1 : ∀ b ∈ w1, isAsciiWsByte b = true)
    (hw2 : ∀ b ∈ w2, isAsciiWsByte b = true)
    (hdec : utf8Decode ev.content = some cs) :
    processLine search st { ev with content := w1 ++ ev.content ++ w2 }
      = processLine search st ev := by
  have hdec' : utf8Decode (w1 ++ ev.content ++ w2)
      = some (w1.map Char.ofNat ++ cs ++ w2.map Char.ofNat) :=
    utf8Decode_pad ev.content cs w1 w2 hw1 hw2 hdec
  have htrim : trimChars (w1.map Char.ofNat ++ cs ++ w2.map Char.ofNat)
      = trimChars cs := by
    apply trimChars_pad
    · intro c hc
      obtain ⟨b, hb, hbc⟩ := List.mem_map.mp hc
      exact hbc ▸ isWs_ofNat_wsByte b (hw1 b hb)
    · intro c hc
      obtain ⟨b, hb, hbc⟩ := List.mem_map.mp hc
      exact hbc ▸ isWs_ofNat_wsByte b (hw2 b hb)
  unfold processLine firstLineno selectedFile
  simp only [hdec', hdec, htrim]

/-- C8: cancellation compares post-trim content.  A removed line whose
trimmed content equals an added line's trimmed content cancels it even when
their raw leading/trailing whitespace differs; and the per-line processing
(hence the dedup outcome) is invariant under padding a line's raw content
with leading/trailing ASCII whitespace. -/
theorem trim_cancellation (search : Matcher) (dEv aEv : DiffLineEvent)
    (cr ca : List Char) (rng : Nat × Nat) (lnR lnA : Nat) (pR pA : String)
    (hoR : dEv.origin = DiffLineType.deletion)
    (hbR : dEv.oldFile.binary = false)
    (hdR : utf8Decode dEv.content = some cr)
    (hlR : firstLineno dEv = some lnR)
    (hpR : dEv.oldFile.path = some pR)
    (hoA : aEv.origin = DiffLineType.addition)
    (hbA : aEv.newFile.binary = false)
    (hdA : utf8Decode aEv.content = some ca)
    (hlA : firstLineno aEv = some lnA)
    (hpA : aEv.newFile.path = some pA)
    (heq : trimChars cr = trimChars ca)
    (hfind : search.find (trimChars ca) = some rng) :
    gbgOutput search [dEv, aEv] (.ok ()) = .ok []
    ∧ ∀ (st : ProcState) (ev : DiffLineEvent) (cs : List Char)
        (w1 w2 : List Nat),
        (∀ b ∈ w1, isAsciiWsByte b = true) →
        (∀ b ∈ w2, isAsciiWsByte b = true) →
        utf8Decode ev.content = some cs →
        processLine search st { ev with content := w1 ++ ev.content ++ w2 }
          = processLine search st ev := by
  refine ⟨?_, fun st ev cs w1 w2 hw1 hw2 hdec =>
    processLine_ws_pad search st ev cs w1 w2 hw1 hw2 hdec⟩
  have h1 : processLine search ProcState.initial dEv
      = .ok ⟨[], ⟨[(trimChars ca, 1)]⟩⟩ := by
    simp [processLine, selectedFile, hoR, hbR, hdR, hlR, hpR, heq, hfind,
      ProcState.initial, MultiSet.insert, MultiSet.new, insertEntry]
  have h2 : processLine search ⟨[], ⟨[(trimChars ca, 1)]⟩⟩ aEv
      = .ok ⟨[⟨trimChars ca, rng, lnA, pA⟩], ⟨[(trimChars ca, 1)]⟩⟩ := by
    simp [processLine, selectedFile, hoA, hbA, hdA, hlA, hpA, hfind]
  simp [gbgOutput, process_diff, printLoop, h1, h2, emitLines,
    MultiSet.remove, removeEntry]

/-- Witness for `trim_cancellation`: `" foo"` (added) is cancelled by
`"foo "` (removed) under the matcher `mW`, and padding `evA`'s raw content
with a space on each side leaves its processing unchanged. -/
theorem trim_cancellation_witness :
    evR.origin = DiffLineType.deletion
    ∧ evR.oldFile.binary = false
    ∧ utf8Decode evR.content = some ['f', 'o', 'o', ' ']
    ∧ firstLineno evR = some 7
    ∧ evR.oldFile.path = some "a.txt"
    ∧ evA.origin = DiffLineType.addition
    ∧ evA.newFile.binary = false
    ∧ utf8Decode evA.content = some [' ', 'f', 'o', 'o']
    ∧ firstLineno evA = some 3
    ∧ evA.newFile.path = some "b.txt"
    ∧ trimChars ['f', 'o', 'o', ' '] = trimChars [' ', 'f', 'o', 'o']
    ∧ mW.find (trimChars [' ', 'f', 'o', 'o']) = some (0, 1)
    ∧ gbgOutput mW [evR, evA] (.ok ()) = .ok []
    ∧ processLine mW ProcState.initial
        { evA with content := [0x20] ++ evA.content ++ [0x20] }
        = processLine mW ProcState.initial evA :=
  ⟨by decide, by decide, by decide, by decide, by decide, by decide,
    by decide, by decide, by decide, by decide, by decide, by decide,
    (trim_cancellation mW evR evA ['f', 'o', 'o', ' '] [' ', 'f', 'o', 'o']
      (0, 1) 7 3 "a.txt" "b.txt" (by decide) (by decide) (by decide)
      (by decide) (by decide) (by decide) (by decide) (by decide)
      (by decide) (by decide) (by decide) (by decide)).1,
    (trim_cancellation mW evR evA ['f', 'o', 'o', ' '] [' ', 'f', 'o', 'o']
      (0, 1) 7 3 "a.txt" "b.txt" (by decide) (by decide) (by decide)
      (by decide) (by decide) (by decide) (by decide) (by decide)
      (by decide) (by decide) (by decide) (by decide)).2
      ProcState.initial evA [' ', 'f', 'o', 'o'] [0x20] [0x20]
      (by decide) (by decide) (by decide)⟩

end GitBranchGrep
